import Mathlib

/-!
Verification development for the package registry and version-resolution core of
DefinitelyTyped-tools (`packages/definitions-parser/src/packages.ts`).

Strings are embedded as `List Char`.  JavaScript objects used as finite maps are
embedded as association lists (`List (κ × α)`), whose key order models the
object's insertion order.  A thrown exception is embedded as `none` / `.error`.
-/

namespace DTTools

/-- Strings of the TypeScript source, embedded as lists of characters. -/
abbrev Str := List Char

/-- Association-list lookup; embeds `map.get(key)` / `obj[key]` (first matching
key wins; JavaScript objects cannot repeat keys). -/
def alookup {κ α : Type} [DecidableEq κ] : List (κ × α) → κ → Option α
  | [], _ => none
  | (k, v) :: rest, key => if k = key then some v else alookup rest key

/-! ## Name mangling (`getMangledNameForScopedPackage`) -/

/-- Embeds `packageName.replace("/", "__")`: JavaScript `String.replace` with a
string pattern rewrites only the first occurrence and returns the string
unchanged when the pattern does not occur. -/
def replaceFirstSlash : Str → Str
  | [] => []
  | c :: cs => if c = '/' then '_' :: '_' :: cs else c :: replaceFirstSlash cs

/-- `getMangledNameForScopedPackage` from `packages.ts`:
if the name starts with `"@"` and `replace("/", "__")` changed it, drop the
leading `"@"` of the replaced form (`slice(1)`); otherwise return it unchanged. -/
def getMangledNameForScopedPackage (packageName : Str) : Str :=
  if packageName.head? = some '@' then
    let replaceSlash := replaceFirstSlash packageName
    if replaceSlash ≠ packageName then replaceSlash.tail else packageName
  else packageName

/-! ## Versions and identifiers -/

/-- Version parsed from a directory name (`DirectoryParsedTypingVersion`):
minor may be unknown. -/
structure DirectoryParsedTypingVersion where
  major : Nat
  minor : Option Nat
deriving DecidableEq, Repr

/-- `DependencyVersion`: the wildcard `"*"` or a directory-parsed version. -/
inductive DependencyVersion where
  | star
  | version (v : DirectoryParsedTypingVersion)
deriving DecidableEq, Repr

/-- Version parsed from a DT header comment (`HeaderParsedTypingVersion`):
both components known. -/
structure HeaderParsedTypingVersion where
  major : Nat
  minor : Nat
deriving DecidableEq, Repr

/-- `PackageId`: an unresolved reference to a dependency edge. -/
structure PackageId where
  name : Str
  version : DependencyVersion
deriving DecidableEq, Repr

/-- `PackageIdWithDefiniteVersion`: a fully resolved id. -/
structure PackageIdWithDefiniteVersion where
  name : Str
  version : HeaderParsedTypingVersion
deriving DecidableEq, Repr

/-- A `PackageIdWithDefiniteVersion` used where a `PackageId` is expected
(in TypeScript this is a structural subtype, no conversion appears). -/
def PackageIdWithDefiniteVersion.toPackageId (p : PackageIdWithDefiniteVersion) : PackageId :=
  ⟨p.name, .version ⟨p.version.major, some p.version.minor⟩⟩

/-! ## Raw typings data -/

/-- The fields of `TypingsDataRaw` that the registry core reads.  Fields the
resolution algorithms never touch (contributors, license, files, content hash,
tooling versions, package.json passthroughs) are omitted. -/
structure TypingsDataRaw where
  libraryName : Str
  typingsPackageName : Str
  dependencies : List (Str × DependencyVersion)
  testDependencies : List Str
  pathMappings : List (Str × DirectoryParsedTypingVersion)
  libraryMajorVersion : Nat
  libraryMinorVersion : Nat
  declaredModules : List Str
  globals : List Str
deriving DecidableEq, Repr, Inhabited

/-- `TypingsData`: one version of an actively maintained package; wraps the raw
record plus the `isLatest` flag passed to the constructor. -/
structure TypingsData where
  data : TypingsDataRaw
  isLatest : Bool
deriving DecidableEq, Repr, Inhabited

/-- Getter `name`: returns `this.data.typingsPackageName`. -/
def TypingsData.name (t : TypingsData) : Str := t.data.typingsPackageName

/-- Getter `major`: returns `this.data.libraryMajorVersion` (header-parsed). -/
def TypingsData.major (t : TypingsData) : Nat := t.data.libraryMajorVersion

/-- Getter `minor`: returns `this.data.libraryMinorVersion` (header-parsed). -/
def TypingsData.minor (t : TypingsData) : Nat := t.data.libraryMinorVersion

/-- Getter `dependencies`: returns `this.data.dependencies`. -/
def TypingsData.dependencies (t : TypingsData) : List (Str × DependencyVersion) :=
  t.data.dependencies

/-- Getter `testDependencies`: returns `this.data.testDependencies`. -/
def TypingsData.testDependencies (t : TypingsData) : List Str := t.data.testDependencies

/-- Getter `pathMappings`: returns `this.data.pathMappings`. -/
def TypingsData.pathMappings (t : TypingsData) : List (Str × DirectoryParsedTypingVersion) :=
  t.data.pathMappings

/-- `PackageBase.id` specialised to `TypingsData`: `{name, version: {major, minor}}`
built from the `name` / `major` / `minor` getters. -/
def TypingsData.id (t : TypingsData) : PackageIdWithDefiniteVersion :=
  ⟨t.name, ⟨t.major, t.minor⟩⟩

/-! ## TypingsVersions -/

/-- The `(major, minor)` directory key of one stored version.  The constructor
turns the raw key `"M.m"` into `new SemVer("M.m.0")`; the patch component is
the constant `0` and never influences `semver.rcompare`, so it is omitted. -/
structure DirKey where
  major : Nat
  minor : Nat
deriving DecidableEq, Repr

/-- The raw mapping of `TypingsVersionsRaw`: directory key to raw record, in
object-key order. -/
abbrev TypingsVersionsRaw := List (DirKey × TypingsDataRaw)

/-- `semver.rcompare a b ≤ 0`, i.e. `a` is at least as new as `b` (patch and
prerelease components are constant here): descending lexicographic order on
`(major, minor)`. -/
abbrev DirKey.Rge (a b : DirKey) : Prop :=
  b.major < a.major ∨ (b.major = a.major ∧ b.minor ≤ a.minor)

/-- `TypingsVersions`: the versions sorted latest-to-oldest, and the map from
version key to the constructed `TypingsData` (insertion order = sorted order). -/
structure TypingsVersions where
  versions : List DirKey
  map : List (DirKey × TypingsData)
deriving Repr

/-- The body of `this.versions.map((version, i) => [version, new
TypingsData(data[`M.m`], !i)])`: pairs each sorted version with its record,
flagging only index `0` as latest.  The raw lookup `data[`M.m`]` cannot miss,
because every element of `versions` is one of `data`'s keys; `.getD default`
embeds the (unreachable) `undefined` of a missed object access. -/
def buildMap (data : TypingsVersionsRaw) : List DirKey → Nat → List (DirKey × TypingsData)
  | [], _ => []
  | v :: vs, i => (v, ⟨(alookup data v).getD default, decide (i = 0)⟩) :: buildMap data vs (i + 1)

/-- The `TypingsVersions` constructor: sort the keys newest-first with
`semver.rcompare` (any comparison sort; key pairs are distinct, so which sorting
algorithm runs is unobservable), then build the map with the index-0 record
flagged latest. -/
def TypingsVersions.ofRaw (data : TypingsVersionsRaw) : TypingsVersions :=
  let versions := (data.map Prod.fst).insertionSort DirKey.Rge
  ⟨versions, buildMap data versions 0⟩

/-- `getAll()`: the map's values, in insertion (= sorted) order. -/
def TypingsVersions.getAll (tv : TypingsVersions) : List TypingsData :=
  tv.map.map Prod.snd

/-- `getLatest()`: `this.map.get(this.versions[0])!`.  On an empty set the
non-null assertion lies and the result is `undefined`, embedded as `none`. -/
def TypingsVersions.getLatest (tv : TypingsVersions) : Option TypingsData :=
  tv.versions.head? >>= fun v => alookup tv.map v

/-- `tryGetLatestMatch(version)`: scan `this.versions` (newest first) for the
first key whose major matches and whose minor matches or is unrequested, then
read it from the map. -/
def TypingsVersions.tryGetLatestMatch (tv : TypingsVersions)
    (version : DirectoryParsedTypingVersion) : Option TypingsData :=
  (tv.versions.find? (fun v =>
      decide (v.major = version.major ∧
        (version.minor = none ∨ version.minor = some v.minor)))).bind
    (fun found => alookup tv.map found)

/-- `getLatestMatch(version, errorMessage?)`: like `tryGetLatestMatch` but
throws when there is no match (`none` embeds the throw; the optional context
message only decorates the thrown error and is not modelled). -/
def TypingsVersions.getLatestMatch (tv : TypingsVersions)
    (version : DirectoryParsedTypingVersion) : Option TypingsData :=
  tv.tryGetLatestMatch version

/-- `get(version, errorMessage?)`: wildcard delegates to `getLatest()`,
otherwise `getLatestMatch`. -/
def TypingsVersions.get (tv : TypingsVersions) : DependencyVersion → Option TypingsData
  | .star => tv.getLatest
  | .version v => tv.getLatestMatch v

/-- `tryGet(version)`: wildcard delegates to `getLatest()`, otherwise
`tryGetLatestMatch`. -/
def TypingsVersions.tryGet (tv : TypingsVersions) : DependencyVersion → Option TypingsData
  | .star => tv.getLatest
  | .version v => tv.tryGetLatestMatch v

/-! ## NotNeededPackage -/

/-- A parsed three-part semantic version (`semver.SemVer`). -/
structure SemVer where
  major : Nat
  minor : Nat
  patch : Nat
deriving DecidableEq, Repr

/-- Splits a string at every `'.'` (the separators of a semver literal). -/
def splitOnDot : Str → List Str
  | [] => [[]]
  | c :: rest =>
    match splitOnDot rest with
    | [] => [[]]
    | group :: groups => if c = '.' then [] :: group :: groups else (c :: group) :: groups

/-- Numeric value of a digit string. -/
def digitsToNat (s : Str) : Nat :=
  s.foldl (fun n c => 10 * n + (c.toNat - 48)) 0

/-- A semver numeric identifier: nonempty, all digits, no leading zero. -/
def parseNumericId (s : Str) : Option Nat :=
  if s ≠ [] ∧ s.all Char.isDigit ∧ (s.head? = some '0' → s = ['0']) then
    some (digitsToNat s)
  else none

/-- Modelled from the spec: the `semver` package is an external collaborator
whose source is not part of this repository.  `new semver.SemVer(s)` parses a
three-part `major.minor.patch` version and throws on malformed input (`none`);
prerelease/build suffixes are not modelled. -/
def parseSemVer (s : Str) : Option SemVer :=
  match splitOnDot s with
  | [a, b, c] =>
    match parseNumericId a, parseNumericId b, parseNumericId c with
    | some major, some minor, some patch => some ⟨major, minor, patch⟩
    | _, _, _ => none
  | _ => none

/-- `s.toLowerCase()` (ASCII model). -/
def toLowerCase (s : Str) : Str := s.map Char.toLower

/-- `NotNeededPackage`: a deprecation stub; carries the parsed `asOfVersion`. -/
structure NotNeededPackage where
  name : Str
  libraryName : Str
  version : SemVer
deriving DecidableEq, Repr

/-- The distinct failures `NotNeededPackage.fromRaw` and the constructor can
throw, in place of the thrown `Error` messages. -/
inductive NotNeededError where
  | nameNotLowerCase
  | unexpectedKey (key : Str)
  | libraryNameNotLowerCase
  | assertionFailed
  | invalidVersion
deriving DecidableEq, Repr

/-- The raw JSON entry of one not-needed package.  `keys` embeds
`Object.keys(raw)` in object order; the named fields embed the property reads. -/
structure NotNeededPackageRaw where
  keys : List Str
  libraryName : Str
  asOfVersion : Str
deriving DecidableEq, Repr

/-- The keys `fromRaw` accepts: `["libraryName", "sourceRepoURL", "asOfVersion"]`. -/
def allowedNotNeededKeys : List Str :=
  [['l','i','b','r','a','r','y','N','a','m','e'],
   ['s','o','u','r','c','e','R','e','p','o','U','R','L'],
   ['a','s','O','f','V','e','r','s','i','o','n']]

/-- The `NotNeededPackage` constructor: `assert(libraryName && name &&
asOfVersion)` (the empty string is the only falsy string), then
`new semver.SemVer(asOfVersion)`, which throws on malformed input. -/
def NotNeededPackage.construct (name libraryName asOfVersion : Str) :
    Except NotNeededError NotNeededPackage :=
  if libraryName = [] ∨ name = [] ∨ asOfVersion = [] then .error .assertionFailed
  else
    match parseSemVer asOfVersion with
    | some v => .ok ⟨name, libraryName, v⟩
    | none => .error .invalidVersion

/-- `NotNeededPackage.fromRaw(name, raw)`: reject a non-lower-case `name`, then
the first key outside the allowed set, then a non-lower-case `libraryName`,
then construct. -/
def NotNeededPackage.fromRaw (name : Str) (raw : NotNeededPackageRaw) :
    Except NotNeededError NotNeededPackage :=
  if name ≠ toLowerCase name then .error .nameNotLowerCase
  else
    match raw.keys.find? (fun key => !(decide (key ∈ allowedNotNeededKeys))) with
    | some key => .error (.unexpectedKey key)
    | none =>
      if raw.libraryName ≠ toLowerCase raw.libraryName then .error .libraryNameNotLowerCase
      else NotNeededPackage.construct name raw.libraryName raw.asOfVersion

/-- Getter `declaredModules` of `NotNeededPackage`: returns `[]`. -/
def NotNeededPackage.declaredModules (_ : NotNeededPackage) : List Str := []

/-- Getter `globals` of `NotNeededPackage`: its body is `return this.globals`,
i.e. it re-invokes itself.  The self-call is embedded with explicit fuel: each
recursive invocation consumes one unit, and `none` means the evaluation did
not finish within the given budget. -/
def NotNeededPackage.globalsFuel (p : NotNeededPackage) : Nat → Option (List Str)
  | 0 => none
  | n + 1 => p.globalsFuel n

/-! ## AllPackages -/

/-- The registry: mangled package name → version set, plus the deprecation
stubs. -/
structure AllPackages where
  data : List (Str × TypingsVersions)
  notNeeded : List NotNeededPackage

/-- `AllPackages.from(data, notNeeded)`: build a `TypingsVersions` for every
entry of the raw mapping. -/
def AllPackages.ofData (data : List (Str × TypingsVersionsRaw))
    (notNeeded : List NotNeededPackage) : AllPackages :=
  ⟨data.map (fun e => (e.1, TypingsVersions.ofRaw e.2)), notNeeded⟩

/-- `tryResolve(dep)`: `(versions && versions.tryGet(dep.version)?.id) || dep`. -/
def AllPackages.tryResolve (ap : AllPackages) (dep : PackageId) : PackageId :=
  match (alookup ap.data (getMangledNameForScopedPackage dep.name)).bind
      (fun versions => versions.tryGet dep.version) with
  | some d => d.id.toPackageId
  | none => dep

/-- `resolve(dep)`: throws (`none`) when no version set exists for the mangled
name, and propagates `get`'s failure; otherwise the matched record's id. -/
def AllPackages.resolve (ap : AllPackages) (dep : PackageId) :
    Option PackageIdWithDefiniteVersion :=
  match alookup ap.data (getMangledNameForScopedPackage dep.name) with
  | none => none
  | some versions => (versions.get dep.version).map TypingsData.id

/-- The first loop of the generator `allDependencyTypings`: for each declared
dependency, skip silently when the name has no version set, otherwise yield
`versions.get(version, msg)` — whose throw (`none` from `get`) aborts the whole
iteration, embedded by an overall `none`. -/
def AllPackages.depTypings (ap : AllPackages) :
    List (Str × DependencyVersion) → Option (List TypingsData)
  | [] => some []
  | (name, version) :: rest =>
    match alookup ap.data (getMangledNameForScopedPackage name) with
    | none => ap.depTypings rest
    | some versions => do
      let d ← versions.get version
      let ds ← ap.depTypings rest
      return d :: ds

/-- The second loop of the generator `allDependencyTypings`: for each test
dependency, skip silently when the name has no version set, otherwise yield the
path-mapping match when an override exists and the latest record otherwise. -/
def AllPackages.testDepTypings (ap : AllPackages) (pkg : TypingsData) :
    List Str → Option (List TypingsData)
  | [] => some []
  | name :: rest =>
    match alookup ap.data (getMangledNameForScopedPackage name) with
    | none => ap.testDepTypings pkg rest
    | some versions => do
      let d ← match alookup pkg.pathMappings name with
        | some version => versions.get (.version version)
        | none => versions.getLatest
      let ds ← ap.testDepTypings pkg rest
      return d :: ds

/-- `allDependencyTypings(pkg)`: the sequence produced by running the two
loops of the generator to completion. -/
def AllPackages.allDependencyTypings (ap : AllPackages) (pkg : TypingsData) :
    Option (List TypingsData) := do
  let xs ← ap.depTypings pkg.dependencies
  let ys ← ap.testDepTypings pkg pkg.testDependencies
  return xs ++ ys

/-- The generator `flattenData`: concatenates `versions.getAll()` over the
registry's values, in map order. -/
def flattenData : List (Str × TypingsVersions) → List TypingsData
  | [] => []
  | (_, versions) :: rest => versions.getAll ++ flattenData rest

/-- Lexicographic string order on character codes, used to model "sorted by
name". -/
def strLe : Str → Str → Bool
  | [], _ => true
  | _ :: _, [] => false
  | a :: as, b :: bs => a < b || (a = b && strLe as bs)

/-- Whether adjacent keys are in nondecreasing order. -/
def sortedBy {α : Type} (key : α → Str) : List α → Bool
  | [] => true
  | [_] => true
  | a :: b :: rest => strLe (key a) (key b) && sortedBy key (b :: rest)

/-- Modelled from the spec: `assertSorted` comes from the utils package, whose
source is not under `src/`.  Per the spec it asserts that the collection is
sorted by the given key — a structural invariant check, not a sort — and a
violation is a fatal internal-consistency error (`none`); it never reorders. -/
def assertSorted {α : Type} (l : List α) (key : α → Str) : Option (List α) :=
  if sortedBy key l then some l else none

/-- `allTypings()`: flatten every version set (all stored versions) and assert
the result is sorted by name. -/
def AllPackages.allTypings (ap : AllPackages) : Option (List TypingsData) :=
  assertSorted (flattenData ap.data) TypingsData.name

/-! ## Example data used by the witnesses -/

/-- A raw record named `w` with header version `1.0` (the `A` record of the
spec's worked example). -/
def rawA : TypingsDataRaw :=
  { libraryName := ['A'], typingsPackageName := ['w'], dependencies := [],
    testDependencies := [], pathMappings := [], libraryMajorVersion := 1,
    libraryMinorVersion := 0, declaredModules := [], globals := [] }

/-- The `B` record: header version `2.3`. -/
def rawB : TypingsDataRaw :=
  { rawA with libraryName := ['B'], libraryMajorVersion := 2, libraryMinorVersion := 3 }

/-- The `C` record: header version `2.1`. -/
def rawC : TypingsDataRaw :=
  { rawA with libraryName := ['C'], libraryMajorVersion := 2, libraryMinorVersion := 1 }

/-- The spec's worked example: versions `{"1.0": A, "2.3": B, "2.1": C}`. -/
def widgetRaw : TypingsVersionsRaw :=
  [(⟨1, 0⟩, rawA), (⟨2, 3⟩, rawB), (⟨2, 1⟩, rawC)]

/-- A one-package registry holding the worked example under the name `"foo"`. -/
def sampleAll : AllPackages :=
  AllPackages.ofData [(['f', 'o', 'o'], widgetRaw)] []

/-- A raw record for a package `bar` with a single version `0.5`. -/
def barRaw : TypingsDataRaw :=
  { rawA with
    libraryName := ['b']
    typingsPackageName := ['b', 'a', 'r']
    libraryMajorVersion := 0
    libraryMinorVersion := 5 }

/-- The version set of `bar`: just `{"0.5": barRaw}`. -/
def barVersions : TypingsVersionsRaw := [(⟨0, 5⟩, barRaw)]

/-- A package depending on `foo` at major 1 plus test dependencies `bar` and a
name absent from the registry. -/
def depPkg : TypingsData :=
  ⟨{ rawA with
     typingsPackageName := ['p']
     dependencies := [(['f', 'o', 'o'], .version ⟨1, none⟩)]
     testDependencies := [['b', 'a', 'r'], ['m', 'i', 's', 's']] }, true⟩

/-- A registry with the version sets of `foo` and `bar`. -/
def sampleAll2 : AllPackages :=
  AllPackages.ofData [(['f', 'o', 'o'], widgetRaw), (['b', 'a', 'r'], barVersions)] []

/-- A registry whose flattened records are not sorted by name (`w` before
`bar`). -/
def sampleBad : AllPackages :=
  AllPackages.ofData [(['z'], widgetRaw), (['a'], barVersions)] []

/-- A record stored under directory key `1.2` whose header version is `3.4`. -/
def skewRaw : TypingsDataRaw :=
  { rawA with
    typingsPackageName := ['s']
    libraryMajorVersion := 3
    libraryMinorVersion := 4 }

end DTTools

/-! # Theorems -/

namespace DTTools

/-! ## Lemmas about `replaceFirstSlash` and mangling -/

theorem replaceFirstSlash_of_not_mem : ∀ {l : Str}, '/' ∉ l → replaceFirstSlash l = l
  | [], _ => rfl
  | c :: cs, h => by
    have hc : ¬(c = '/') := fun hc => h (by simp [hc])
    simp only [replaceFirstSlash, if_neg hc]
    rw [replaceFirstSlash_of_not_mem (fun hm => h (List.mem_cons_of_mem _ hm))]

theorem length_replaceFirstSlash_of_mem : ∀ {l : Str}, '/' ∈ l →
    (replaceFirstSlash l).length = l.length + 1
  | c :: cs, h => by
    by_cases hc : c = '/'
    · simp [replaceFirstSlash, hc]
    · have hcs : '/' ∈ cs := by
        rcases List.mem_cons.mp h with h1 | h1
        · exact absurd h1.symm hc
        · exact h1
      simp [replaceFirstSlash, hc, length_replaceFirstSlash_of_mem hcs]

theorem replaceFirstSlash_ne_of_mem {l : Str} (h : '/' ∈ l) : replaceFirstSlash l ≠ l := by
  intro he
  have := length_replaceFirstSlash_of_mem h
  rw [he] at this
  omega

theorem not_mem_replaceFirstSlash_of_count_le_one : ∀ {l : Str}, l.count '/' ≤ 1 →
    '/' ∉ replaceFirstSlash l
  | [], _ => by simp [replaceFirstSlash]
  | c :: cs, h => by
    by_cases hc : c = '/'
    · subst hc
      have hcount := List.count_cons_self '/' cs
      have hcs : cs.count '/' = 0 := by omega
      have hns : '/' ∉ cs := List.count_eq_zero.mp hcs
      simp only [replaceFirstSlash, if_pos rfl]
      intro hmem
      rcases List.mem_cons.mp hmem with h1 | h1
      · exact absurd h1 (by decide)
      · rcases List.mem_cons.mp h1 with h2 | h2
        · exact absurd h2 (by decide)
        · exact hns h2
    · have hcount := List.count_cons_of_ne
        (show ('/' : Char) ≠ c from fun he => hc he.symm) cs
      have ih := not_mem_replaceFirstSlash_of_count_le_one
        (show cs.count '/' ≤ 1 by omega)
      simp only [replaceFirstSlash, if_neg hc]
      intro hmem
      rcases List.mem_cons.mp hmem with h1 | h1
      · exact hc h1.symm
      · exact ih h1

theorem head?_replaceFirstSlash {l : Str} {c : Char} (h : (replaceFirstSlash l).head? = some c) :
    c = '_' ∨ l.head? = some c := by
  match l with
  | [] => simp [replaceFirstSlash] at h
  | a :: as =>
    by_cases ha : a = '/'
    · simp [replaceFirstSlash, ha] at h
      exact Or.inl h.symm
    · simp [replaceFirstSlash, ha] at h
      exact Or.inr (by simp [h])

/-- On a scoped name containing a separator, mangling replaces the first
separator of the part after the scope marker and drops the marker. -/
theorem mangle_scoped {t : Str} (h : '/' ∈ t) :
    getMangledNameForScopedPackage ('@' :: t) = replaceFirstSlash t := by
  have hr : replaceFirstSlash ('@' :: t) = '@' :: replaceFirstSlash t := by
    simp [replaceFirstSlash]
  have hne : '@' :: replaceFirstSlash t ≠ '@' :: t := by
    intro he
    exact replaceFirstSlash_ne_of_mem h (List.cons_injective he)
  simp [getMangledNameForScopedPackage, hr, hne]

/-- A name that is not scoped, or contains no separator, mangles to itself. -/
theorem mangle_eq_self {l : Str} (h : l.head? = some '@' → '/' ∉ l) :
    getMangledNameForScopedPackage l = l := by
  by_cases hh : l.head? = some '@'
  · have hns : '/' ∉ l := h hh
    simp [getMangledNameForScopedPackage, hh, replaceFirstSlash_of_not_mem hns]
  · simp [getMangledNameForScopedPackage, hh]

/-! ## Claim C5 -/

/-- Claim C5 counterexample: the claim says every name other than
`"@x/y"`-shaped ones (scope marker plus exactly one separator) mangles to
itself, but `"@a/b/c"` — scoped with two separators — mangles to `"a__b/c"`,
not to itself: the code requires only at least one separator and rewrites the
first. -/
theorem claim_c5_counterexample :
    getMangledNameForScopedPackage ['@', 'a', '/', 'b', '/', 'c'] =
        ['a', '_', '_', 'b', '/', 'c'] ∧
      ['a', '_', '_', 'b', '/', 'c'] ≠ ['@', 'a', '/', 'b', '/', 'c'] := by
  decide

/-- Claim C5 (amended): a name starting with the scope marker and containing at
least one path separator mangles by dropping the marker and replacing the
first separator with a double underscore; every other name mangles to
itself. -/
theorem claim_c5 (packageName : Str) :
    (∀ t, packageName = '@' :: t → '/' ∈ t →
      getMangledNameForScopedPackage packageName = replaceFirstSlash t) ∧
    ((packageName.head? = some '@' → '/' ∉ packageName) →
      getMangledNameForScopedPackage packageName = packageName) := by
  constructor
  · intro t ht hmem
    subst ht
    exact mangle_scoped hmem
  · exact mangle_eq_self

/-- Witness for C5: `"@scope/pkg"` mangles to `"scope__pkg"` and an unscoped
name mangles to itself. -/
theorem claim_c5_witness :
    getMangledNameForScopedPackage ['@', 's', '/', 'p'] = ['s', '_', '_', 'p'] ∧
    getMangledNameForScopedPackage ['f', 'o', 'o'] = ['f', 'o', 'o'] := by
  constructor
  · exact ((claim_c5 _).1 ['s', '/', 'p'] rfl (by decide)).trans (by decide)
  · exact (claim_c5 _).2 (by decide)

/-! ## Claim C6 -/

/-- Claim C6 counterexample: mangling is not idempotent on every string:
`mangle "@@a/b/c" = "@a__b/c"`, which mangles again to `"a__b__c"`. -/
theorem claim_c6_counterexample :
    getMangledNameForScopedPackage
        (getMangledNameForScopedPackage ['@', '@', 'a', '/', 'b', '/', 'c']) =
      ['a', '_', '_', 'b', '_', '_', 'c'] ∧
    getMangledNameForScopedPackage ['@', '@', 'a', '/', 'b', '/', 'c'] =
      ['@', 'a', '_', '_', 'b', '/', 'c'] ∧
    getMangledNameForScopedPackage
        (getMangledNameForScopedPackage ['@', '@', 'a', '/', 'b', '/', 'c']) ≠
      getMangledNameForScopedPackage ['@', '@', 'a', '/', 'b', '/', 'c'] := by
  decide

/-- Claim C6 (amended): mangling is idempotent on every string except those
that start with a doubled scope marker `"@@"` and contain at least two path
separators (for exactly those, the once-mangled form is again scoped with a
separator). -/
theorem claim_c6 (x : Str) (h : ¬(x.take 2 = ['@', '@'] ∧ 2 ≤ x.count '/')) :
    getMangledNameForScopedPackage (getMangledNameForScopedPackage x) =
      getMangledNameForScopedPackage x := by
  match x with
  | [] => decide
  | c :: t =>
    by_cases hc : c = '@'
    · subst hc
      by_cases hmem : '/' ∈ t
      · rw [mangle_scoped hmem]
        match t, hmem with
        | a :: u, hmem =>
          by_cases ha : a = '@'
          · subst ha
            have hcount : ('@' :: '@' :: u).count '/' ≤ 1 := by
              by_contra hgt
              exact h ⟨rfl, by omega⟩
            have hstep := List.count_cons_of_ne
              (show ('/' : Char) ≠ '@' by decide) ('@' :: u)
            have hcount' : ('@' :: u).count '/' ≤ 1 := by omega
            exact mangle_eq_self
              (fun _ => not_mem_replaceFirstSlash_of_count_le_one hcount')
          · refine mangle_eq_self (fun hh => ?_)
            exfalso
            rcases head?_replaceFirstSlash hh with h1 | h1
            · exact ((by decide : ('@' : Char) ≠ '_') h1).elim
            · exact ha (by simpa using h1 : a = '@')
      · have hself : getMangledNameForScopedPackage ('@' :: t) = '@' :: t :=
          mangle_eq_self (fun _ hm => by
            rcases List.mem_cons.mp hm with h1 | h1
            · exact absurd h1 (by decide)
            · exact hmem h1)
        rw [hself, hself]
    · have hself : getMangledNameForScopedPackage (c :: t) = c :: t :=
        mangle_eq_self (fun hh => absurd (by simpa using hh) hc)
      rw [hself, hself]

/-- Witness for C6: idempotence at the ordinary scoped name `"@s/p"`. -/
theorem claim_c6_witness :
    getMangledNameForScopedPackage
        (getMangledNameForScopedPackage ['@', 's', '/', 'p']) =
      getMangledNameForScopedPackage ['@', 's', '/', 'p'] :=
  claim_c6 _ (by decide)

/-! ## Lemmas about `TypingsVersions` -/

instance : IsTotal DirKey DirKey.Rge :=
  ⟨fun a b => by dsimp only [DirKey.Rge]; omega⟩

instance : IsTrans DirKey DirKey.Rge :=
  ⟨fun a b c h1 h2 => by dsimp only [DirKey.Rge] at h1 h2 ⊢; omega⟩

theorem ofRaw_versions (data : TypingsVersionsRaw) :
    (TypingsVersions.ofRaw data).versions =
      (data.map Prod.fst).insertionSort DirKey.Rge := rfl

theorem ofRaw_map (data : TypingsVersionsRaw) :
    (TypingsVersions.ofRaw data).map =
      buildMap data ((data.map Prod.fst).insertionSort DirKey.Rge) 0 := rfl

theorem sorted_ofRaw_versions (data : TypingsVersionsRaw) :
    (TypingsVersions.ofRaw data).versions.Pairwise DirKey.Rge :=
  List.sorted_insertionSort DirKey.Rge _

theorem perm_ofRaw_versions (data : TypingsVersionsRaw) :
    (TypingsVersions.ofRaw data).versions.Perm (data.map Prod.fst) :=
  List.perm_insertionSort DirKey.Rge _

/-- In a newest-first sorted list, the first key with a given major has the
greatest minor among all keys with that major. -/
theorem find?_major_max {l : List DirKey}
    (hs : l.Pairwise DirKey.Rge)
    {p : DirKey → Bool} {m : Nat} (hp : ∀ w, p w = true ↔ w.major = m)
    {v : DirKey} (hf : l.find? p = some v) :
    v.major = m ∧ ∀ w ∈ l, w.major = m → w.minor ≤ v.minor := by
  induction l with
  | nil => simp at hf
  | cons x xs ih =>
    rcases List.pairwise_cons.mp hs with ⟨hx, hxs⟩
    by_cases hpx : p x = true
    · rw [List.find?_cons_of_pos _ hpx] at hf
      injection hf with hv
      subst hv
      refine ⟨(hp x).mp hpx, ?_⟩
      intro w hw hwm
      rcases List.mem_cons.mp hw with h1 | h1
      · subst h1; exact le_refl _
      · have hr := hx w h1
        have hxm := (hp x).mp hpx
        dsimp only [DirKey.Rge] at hr
        omega
    · rw [List.find?_cons_of_neg _ (by simpa using hpx)] at hf
      obtain ⟨hvm, hmax⟩ := ih hxs hf
      refine ⟨hvm, ?_⟩
      intro w hw hwm
      rcases List.mem_cons.mp hw with h1 | h1
      · subst h1
        exact absurd ((hp w).mpr hwm) hpx
      · exact hmax w h1 hwm

/-- `find?` with a predicate characterising a single value returns the value as
soon as it is present. -/
theorem find?_eq_some_of_pred_iff {α : Type} {p : α → Bool} {x : α}
    (hp : ∀ y, p y = true ↔ y = x) :
    ∀ {l : List α}, x ∈ l → l.find? p = some x := by
  intro l hl
  induction l with
  | nil => simp at hl
  | cons a as ih =>
    by_cases hpa : p a = true
    · rw [List.find?_cons_of_pos _ hpa, (hp a).mp hpa]
    · rw [List.find?_cons_of_neg _ (by simpa using hpa)]
      rcases List.mem_cons.mp hl with h1 | h1
      · exact absurd ((hp a).mpr h1.symm) hpa
      · exact ih h1

theorem mem_keys_of_alookup_eq_some {κ α : Type} [DecidableEq κ] :
    ∀ {l : List (κ × α)} {k : κ} {a : α}, alookup l k = some a → k ∈ l.map Prod.fst
  | [], _, _, h => by simp [alookup] at h
  | (k1, a1) :: rest, k, a, h => by
    by_cases hk : k1 = k
    · simp [hk]
    · simp only [alookup, if_neg hk] at h
      simp [mem_keys_of_alookup_eq_some h]

theorem exists_alookup_eq_some_of_mem_keys {κ α : Type} [DecidableEq κ] :
    ∀ {l : List (κ × α)} {k : κ}, k ∈ l.map Prod.fst → ∃ a, alookup l k = some a
  | [], _, h => by simp at h
  | (k1, a1) :: rest, k, h => by
    rw [List.map_cons] at h
    by_cases hk : k1 = k
    · exact ⟨a1, by simp [alookup, hk]⟩
    · have hmem : k ∈ rest.map Prod.fst := by
        rcases List.mem_cons.mp h with h1 | h1
        · exact absurd h1.symm hk
        · exact h1
      obtain ⟨a, ha⟩ := exists_alookup_eq_some_of_mem_keys hmem
      exact ⟨a, by simp [alookup, hk, ha]⟩

/-- The constructed map stores, at each sorted version, the raw record filed
under that key, with some latest-flag. -/
theorem alookup_buildMap {data : TypingsVersionsRaw} :
    ∀ {vs : List DirKey} {i : Nat} {v : DirKey}, v ∈ vs →
    ∃ b, alookup (buildMap data vs i) v =
      some ⟨(alookup data v).getD default, b⟩
  | [], _, _, h => by simp at h
  | w :: ws, i, v, h => by
    by_cases hw : w = v
    · subst hw
      exact ⟨decide (i = 0), by simp [buildMap, alookup]⟩
    · have hmem : v ∈ ws := by
        rcases List.mem_cons.mp h with h1 | h1
        · exact absurd h1.symm hw
        · exact h1
      obtain ⟨b, hb⟩ := @alookup_buildMap data ws (i + 1) v hmem
      exact ⟨b, by simp [buildMap, alookup, hw, hb]⟩

/-- An exact `(major, minor)` request retrieves precisely the record filed
under that directory key. -/
theorem tryGet_exact {data : TypingsVersionsRaw} {m n : Nat} {raw : TypingsDataRaw}
    (hraw : alookup data ⟨m, n⟩ = some raw) :
    ∃ b, (TypingsVersions.ofRaw data).tryGet (.version ⟨m, some n⟩) = some ⟨raw, b⟩ ∧
      (TypingsVersions.ofRaw data).get (.version ⟨m, some n⟩) = some ⟨raw, b⟩ := by
  have hperm := perm_ofRaw_versions data
  have hkeys : (⟨m, n⟩ : DirKey) ∈ data.map Prod.fst := mem_keys_of_alookup_eq_some hraw
  have hmem : (⟨m, n⟩ : DirKey) ∈ (TypingsVersions.ofRaw data).versions :=
    hperm.mem_iff.mpr hkeys
  have hp : ∀ y : DirKey,
      (decide (y.major = m ∧ ((some n : Option Nat) = none ∨ some n = some y.minor)) = true) ↔
      y = (⟨m, n⟩ : DirKey) := by
    rintro ⟨ym, yn⟩
    simp only [decide_eq_true_eq, DirKey.mk.injEq, Option.some.injEq]
    constructor
    · rintro ⟨h1, h2 | h2⟩
      · exact absurd h2 (by simp)
      · exact ⟨h1, h2.symm⟩
    · rintro ⟨h1, h2⟩
      exact ⟨h1, Or.inr h2.symm⟩
  have hfind := find?_eq_some_of_pred_iff hp hmem
  obtain ⟨b, hb⟩ := @alookup_buildMap data
    ((data.map Prod.fst).insertionSort DirKey.Rge) 0 ⟨m, n⟩ hmem
  have hmap : alookup (TypingsVersions.ofRaw data).map ⟨m, n⟩ =
      some ⟨(alookup data ⟨m, n⟩).getD default, b⟩ := hb
  rw [hraw] at hmap
  simp only [Option.getD_some] at hmap
  have htry : (TypingsVersions.ofRaw data).tryGet (.version ⟨m, some n⟩) =
      ((TypingsVersions.ofRaw data).versions.find?
        (fun y => decide (y.major = m ∧
          ((some n : Option Nat) = none ∨ some n = some y.minor)))).bind
        (fun found => alookup (TypingsVersions.ofRaw data).map found) := rfl
  have hget : (TypingsVersions.ofRaw data).get (.version ⟨m, some n⟩) =
      (TypingsVersions.ofRaw data).tryGet (.version ⟨m, some n⟩) := rfl
  refine ⟨b, ?_, ?_⟩
  · rw [htry, hfind]
    exact hmap
  · rw [hget, htry, hfind]
    exact hmap

/-! ## Claim C1 -/

/-- Claim C1: on a version set, a request with a specified major and
unspecified minor makes `get`/`tryGet` return the record of the
highest-minor key among those with the requested major (the first match in
newest-first order); a request with both components specified returns the
record filed under exactly that `(major, minor)` key whenever it exists. -/
theorem claim_c1 (data : TypingsVersionsRaw) (m : Nat) :
    ((∃ v ∈ data.map Prod.fst, v.major = m) →
      ∃ v d,
        (TypingsVersions.ofRaw data).tryGet (.version ⟨m, none⟩) = some d ∧
        (TypingsVersions.ofRaw data).get (.version ⟨m, none⟩) = some d ∧
        v ∈ data.map Prod.fst ∧ v.major = m ∧
        (∀ w ∈ data.map Prod.fst, w.major = m → w.minor ≤ v.minor) ∧
        alookup data v = some d.data) ∧
    (∀ n raw, alookup data ⟨m, n⟩ = some raw →
      ∃ d,
        (TypingsVersions.ofRaw data).tryGet (.version ⟨m, some n⟩) = some d ∧
        (TypingsVersions.ofRaw data).get (.version ⟨m, some n⟩) = some d ∧
        d.data = raw) := by
  have hperm := perm_ofRaw_versions data
  constructor
  · rintro ⟨v0, hv0mem, hv0m⟩
    have hp : ∀ w : DirKey,
        (decide (w.major = m ∧ ((none : Option Nat) = none ∨ none = some w.minor)) = true) ↔
        w.major = m := by
      intro w; simp
    have hmem0 : v0 ∈ (TypingsVersions.ofRaw data).versions := hperm.mem_iff.mpr hv0mem
    have hex : ((TypingsVersions.ofRaw data).versions.find?
        (fun v => decide (v.major = m ∧
          ((none : Option Nat) = none ∨ none = some v.minor)))).isSome := by
      rw [List.find?_isSome]
      exact ⟨v0, hmem0, (hp v0).mpr hv0m⟩
    obtain ⟨v, hv⟩ := Option.isSome_iff_exists.mp hex
    obtain ⟨hvm, hmax⟩ := find?_major_max (sorted_ofRaw_versions data) hp hv
    have hvmem : v ∈ (TypingsVersions.ofRaw data).versions := List.mem_of_find?_eq_some hv
    have hvkeys : v ∈ data.map Prod.fst := hperm.mem_iff.mp hvmem
    obtain ⟨b, hb⟩ := @alookup_buildMap data
      ((data.map Prod.fst).insertionSort DirKey.Rge) 0 v hvmem
    have hmap : alookup (TypingsVersions.ofRaw data).map v =
        some ⟨(alookup data v).getD default, b⟩ := hb
    obtain ⟨raw, hraw⟩ := exists_alookup_eq_some_of_mem_keys hvkeys
    have htry : (TypingsVersions.ofRaw data).tryGet (.version ⟨m, none⟩) =
        ((TypingsVersions.ofRaw data).versions.find?
          (fun v => decide (v.major = m ∧
            ((none : Option Nat) = none ∨ none = some v.minor)))).bind
          (fun found => alookup (TypingsVersions.ofRaw data).map found) := rfl
    have hget : (TypingsVersions.ofRaw data).get (.version ⟨m, none⟩) =
        (TypingsVersions.ofRaw data).tryGet (.version ⟨m, none⟩) := rfl
    refine ⟨v, ⟨(alookup data v).getD default, b⟩, ?_, ?_, hvkeys, hvm,
      (fun w hw hwm => hmax w (hperm.mem_iff.mpr hw) hwm), ?_⟩
    · rw [htry, hv]
      exact hmap
    · rw [hget, htry, hv]
      exact hmap
    · simp only [hraw, Option.getD_some]
  · intro n raw hraw
    obtain ⟨b, h1, h2⟩ := tryGet_exact hraw
    exact ⟨⟨raw, b⟩, h1, h2, rfl⟩

/-- Witness for C1 on the spec's worked example: `get({major: 2})` finds the
`2.3` record and `get({major: 2, minor: 1})` the `2.1` record. -/
theorem claim_c1_witness :
    (∃ v d,
      (TypingsVersions.ofRaw widgetRaw).tryGet (.version ⟨2, none⟩) = some d ∧
      (TypingsVersions.ofRaw widgetRaw).get (.version ⟨2, none⟩) = some d ∧
      v ∈ widgetRaw.map Prod.fst ∧ v.major = 2 ∧
      (∀ w ∈ widgetRaw.map Prod.fst, w.major = 2 → w.minor ≤ v.minor) ∧
      alookup widgetRaw v = some d.data) ∧
    (∃ d,
      (TypingsVersions.ofRaw widgetRaw).tryGet (.version ⟨2, some 1⟩) = some d ∧
      (TypingsVersions.ofRaw widgetRaw).get (.version ⟨2, some 1⟩) = some d ∧
      d.data = rawC) :=
  ⟨(claim_c1 widgetRaw 2).1 ⟨⟨2, 3⟩, by decide, rfl⟩,
   (claim_c1 widgetRaw 2).2 1 rawC (by decide)⟩

/-! ## Claim C2 -/

theorem ofRaw_map_versions (data : TypingsVersionsRaw) :
    (TypingsVersions.ofRaw data).map =
      buildMap data (TypingsVersions.ofRaw data).versions 0 := rfl

/-- Every record built at an index other than `0` carries `isLatest = false`. -/
theorem countP_buildMap_of_ne (data : TypingsVersionsRaw) :
    ∀ (vs : List DirKey) (i : Nat), i ≠ 0 →
    ((buildMap data vs i).map Prod.snd).countP (fun d => d.isLatest) = 0 := by
  intro vs
  induction vs with
  | nil => intro i _; rfl
  | cons v vs ih =>
    intro i hi
    have hflag : decide (i = 0) = false := decide_eq_false hi
    simp only [buildMap, List.map_cons, List.countP_cons]
    rw [ih (i + 1) (by omega)]
    simp [hflag]

/-- Claim C2: on a non-empty raw mapping, exactly one constructed record has
`isLatest = true`; it sits at index 0 of the sorted order, its directory key is
the `rcompare`-greatest (lexicographically-maximal `(major, minor)`) among all
keys, and `getLatest()` returns it. -/
theorem claim_c2 (data : TypingsVersionsRaw) (hne : data ≠ []) :
    ∃ v0 d0,
      (TypingsVersions.ofRaw data).map.head? = some (v0, d0) ∧
      d0.isLatest = true ∧
      (TypingsVersions.ofRaw data).getLatest = some d0 ∧
      (TypingsVersions.ofRaw data).getAll.countP (fun d => d.isLatest) = 1 ∧
      v0 ∈ data.map Prod.fst ∧
      (∀ w ∈ data.map Prod.fst, DirKey.Rge v0 w) := by
  have hperm := perm_ofRaw_versions data
  have hkeysne : data.map Prod.fst ≠ [] := by
    intro h
    exact hne (List.map_eq_nil_iff.mp h)
  have hlen := hperm.length_eq
  have hvne : (TypingsVersions.ofRaw data).versions ≠ [] := by
    intro h
    rw [h] at hlen
    exact hkeysne (List.eq_nil_of_length_eq_zero hlen.symm)
  obtain ⟨v0, vs, hver⟩ := List.exists_cons_of_ne_nil hvne
  refine ⟨v0, ⟨(alookup data v0).getD default, true⟩, ?_, rfl, ?_, ?_, ?_, ?_⟩
  · rw [ofRaw_map_versions, hver]
    simp [buildMap]
  · simp only [TypingsVersions.getLatest, hver, ofRaw_map_versions]
    simp [buildMap, alookup]
  · simp only [TypingsVersions.getAll, ofRaw_map_versions]
    rw [hver]
    simp only [buildMap, List.map_cons, List.countP_cons]
    rw [countP_buildMap_of_ne data vs 1 (by omega)]
    simp
  · exact hperm.mem_iff.mp (hver ▸ List.mem_cons_self v0 vs)
  · intro w hw
    have hwv : w ∈ (TypingsVersions.ofRaw data).versions := hperm.mem_iff.mpr hw
    rw [hver] at hwv
    have hs := sorted_ofRaw_versions data
    rw [hver] at hs
    rcases List.mem_cons.mp hwv with h1 | h1
    · subst h1
      exact Or.inr ⟨rfl, le_refl _⟩
    · exact (List.pairwise_cons.mp hs).1 w h1

/-- Witness for C2 on the spec's worked example. -/
theorem claim_c2_witness :
    ∃ v0 d0,
      (TypingsVersions.ofRaw widgetRaw).map.head? = some (v0, d0) ∧
      d0.isLatest = true ∧
      (TypingsVersions.ofRaw widgetRaw).getLatest = some d0 ∧
      (TypingsVersions.ofRaw widgetRaw).getAll.countP (fun d => d.isLatest) = 1 ∧
      v0 ∈ widgetRaw.map Prod.fst ∧
      (∀ w ∈ widgetRaw.map Prod.fst, DirKey.Rge v0 w) :=
  claim_c2 widgetRaw (by decide)

/-! ## Claim C3 -/

/-- Claim C3: `tryResolve` never fails — when the mangled name has no version
set, or the set has no record matching the requested version, the original id
comes back unchanged; when a record matches, its definite-version id comes
back. -/
theorem claim_c3 (ap : AllPackages) (dep : PackageId) :
    (alookup ap.data (getMangledNameForScopedPackage dep.name) = none →
      ap.tryResolve dep = dep) ∧
    (∀ tv, alookup ap.data (getMangledNameForScopedPackage dep.name) = some tv →
      tv.tryGet dep.version = none → ap.tryResolve dep = dep) ∧
    (∀ tv d, alookup ap.data (getMangledNameForScopedPackage dep.name) = some tv →
      tv.tryGet dep.version = some d →
      ap.tryResolve dep = d.id.toPackageId) := by
  refine ⟨?_, ?_, ?_⟩
  · intro h
    simp [AllPackages.tryResolve, h]
  · intro tv h1 h2
    simp [AllPackages.tryResolve, h1, h2]
  · intro tv d h1 h2
    simp [AllPackages.tryResolve, h1, h2]

/-- Witness for C3: an unknown name and an unmatched version both come back
unchanged; a matched version resolves to the record's definite id. -/
theorem claim_c3_witness :
    sampleAll.tryResolve ⟨['b', 'a', 'r'], .star⟩ = ⟨['b', 'a', 'r'], .star⟩ ∧
    sampleAll.tryResolve ⟨['f', 'o', 'o'], .version ⟨9, none⟩⟩ =
      ⟨['f', 'o', 'o'], .version ⟨9, none⟩⟩ ∧
    sampleAll.tryResolve ⟨['f', 'o', 'o'], .version ⟨2, some 1⟩⟩ =
      ⟨['w'], .version ⟨2, some 1⟩⟩ :=
  ⟨(claim_c3 sampleAll ⟨['b', 'a', 'r'], .star⟩).1 rfl,
   (claim_c3 sampleAll ⟨['f', 'o', 'o'], .version ⟨9, none⟩⟩).2.1
     (TypingsVersions.ofRaw widgetRaw) rfl rfl,
   (claim_c3 sampleAll ⟨['f', 'o', 'o'], .version ⟨2, some 1⟩⟩).2.2
     (TypingsVersions.ofRaw widgetRaw) ⟨rawC, false⟩ rfl rfl⟩

/-! ## Claim C9 -/

/-- Claim C9: reading `globals` on a `NotNeededPackage` never produces a value
— the getter returns `this.globals`, re-invoking itself, so no finite
evaluation budget suffices — while `declaredModules` returns the empty list. -/
theorem claim_c9 (p : NotNeededPackage) :
    (∀ fuel, p.globalsFuel fuel = none) ∧ p.declaredModules = [] := by
  refine ⟨fun fuel => ?_, rfl⟩
  induction fuel with
  | zero => rfl
  | succ n ih => exact ih

/-! ## Claim C4 -/

/-- When every declared dependency that has a version set resolves, the first
generator loop yields exactly the resolutions, in declaration order, skipping
names without a version set. -/
theorem depTypings_eq (ap : AllPackages) :
    ∀ deps : List (Str × DependencyVersion),
    (∀ e ∈ deps, Option.all (fun tv => (tv.get e.2).isSome)
        (alookup ap.data (getMangledNameForScopedPackage e.1)) = true) →
    ap.depTypings deps = some (deps.filterMap fun e =>
      (alookup ap.data (getMangledNameForScopedPackage e.1)).bind fun tv => tv.get e.2) := by
  intro deps
  induction deps with
  | nil => intro _; rfl
  | cons e rest ih =>
    intro h
    obtain ⟨name, version⟩ := e
    have hhead := h (name, version) (List.mem_cons_self _ _)
    have htail := fun e he => h e (List.mem_cons_of_mem _ he)
    cases hlook : alookup ap.data (getMangledNameForScopedPackage name) with
    | none =>
      simp [AllPackages.depTypings, hlook, List.filterMap_cons, ih htail]
    | some tv =>
      rw [hlook] at hhead
      simp only [Option.all_some] at hhead
      obtain ⟨d, hd⟩ := Option.isSome_iff_exists.mp hhead
      simp [AllPackages.depTypings, hlook, hd, List.filterMap_cons, ih htail]

/-- When every test dependency that has a version set resolves (through its
path-mapping override or to the latest record), the second generator loop
yields exactly those resolutions, in declaration order, skipping names without
a version set. -/
theorem testDepTypings_eq (ap : AllPackages) (pkg : TypingsData) :
    ∀ tds : List Str,
    (∀ name ∈ tds, Option.all (fun tv =>
        (match alookup pkg.pathMappings name with
          | some version => tv.get (.version version)
          | none => tv.getLatest).isSome)
        (alookup ap.data (getMangledNameForScopedPackage name)) = true) →
    ap.testDepTypings pkg tds = some (tds.filterMap fun name =>
      (alookup ap.data (getMangledNameForScopedPackage name)).bind fun tv =>
        match alookup pkg.pathMappings name with
        | some version => tv.get (.version version)
        | none => tv.getLatest) := by
  intro tds
  induction tds with
  | nil => intro _; rfl
  | cons name rest ih =>
    intro h
    have hhead := h name (List.mem_cons_self _ _)
    have htail := fun e he => h e (List.mem_cons_of_mem _ he)
    cases hlook : alookup ap.data (getMangledNameForScopedPackage name) with
    | none =>
      simp [AllPackages.testDepTypings, hlook, List.filterMap_cons, ih htail]
    | some tv =>
      rw [hlook] at hhead
      simp only [Option.all_some] at hhead
      cases hpm : alookup pkg.pathMappings name with
      | none =>
        rw [hpm] at hhead
        simp only at hhead
        obtain ⟨d, hd⟩ := Option.isSome_iff_exists.mp hhead
        simp [AllPackages.testDepTypings, hlook, hpm, hd, List.filterMap_cons, ih htail]
      | some version =>
        rw [hpm] at hhead
        simp only at hhead
        obtain ⟨d, hd⟩ := Option.isSome_iff_exists.mp hhead
        simp [AllPackages.testDepTypings, hlook, hpm, hd, List.filterMap_cons, ih htail]

/-- Claim C4: `allDependencyTypings` yields, in order: for each declared
dependency in declaration order, the record resolved through that dependency's
version set, silently skipping names with no version set at all; then for each
test dependency in declaration order (again skipping names with no version
set), the record resolved via the package's path-mapping override when one is
present, else that dependency's latest record — provided every resolution that
is attempted succeeds. -/
theorem claim_c4 (ap : AllPackages) (pkg : TypingsData)
    (h1 : ∀ e ∈ pkg.dependencies, Option.all (fun tv => (tv.get e.2).isSome)
        (alookup ap.data (getMangledNameForScopedPackage e.1)) = true)
    (h2 : ∀ name ∈ pkg.testDependencies, Option.all (fun tv =>
        (match alookup pkg.pathMappings name with
          | some version => tv.get (.version version)
          | none => tv.getLatest).isSome)
        (alookup ap.data (getMangledNameForScopedPackage name)) = true) :
    ap.allDependencyTypings pkg = some (
      (pkg.dependencies.filterMap fun e =>
        (alookup ap.data (getMangledNameForScopedPackage e.1)).bind fun tv =>
          tv.get e.2) ++
      pkg.testDependencies.filterMap fun name =>
        (alookup ap.data (getMangledNameForScopedPackage name)).bind fun tv =>
          match alookup pkg.pathMappings name with
          | some version => tv.get (.version version)
          | none => tv.getLatest) := by
  unfold AllPackages.allDependencyTypings
  rw [depTypings_eq ap pkg.dependencies h1, testDepTypings_eq ap pkg pkg.testDependencies h2]
  rfl

/-- Witness for C4: a package depending on `foo@1` with test dependencies
`bar` (no path mapping) and an unregistered name yields `foo`'s major-1
match followed by `bar`'s latest. -/
theorem claim_c4_witness :
    sampleAll2.allDependencyTypings depPkg = some (
      (depPkg.dependencies.filterMap fun e =>
        (alookup sampleAll2.data (getMangledNameForScopedPackage e.1)).bind fun tv =>
          tv.get e.2) ++
      depPkg.testDependencies.filterMap fun name =>
        (alookup sampleAll2.data (getMangledNameForScopedPackage name)).bind fun tv =>
          match alookup depPkg.pathMappings name with
          | some version => tv.get (.version version)
          | none => tv.getLatest) :=
  claim_c4 sampleAll2 depPkg (by decide) (by decide)

/-! ## Claim C7 -/

/-- Claim C7: `NotNeededPackage.fromRaw` validates in exactly this order,
failing with the first violated rule's error: non-lower-case `name`; a key of
`raw` outside the allowed set; non-lower-case `libraryName`; an empty
`libraryName`, `name` or `asOfVersion` (the constructor's assertion); an
unparsable `asOfVersion`.  When no rule is violated it returns the constructed
package. -/
theorem claim_c7 (name : Str) (raw : NotNeededPackageRaw) :
    (name ≠ toLowerCase name →
      NotNeededPackage.fromRaw name raw = .error .nameNotLowerCase) ∧
    (name = toLowerCase name →
      ∀ key, raw.keys.find? (fun key => !(decide (key ∈ allowedNotNeededKeys))) = some key →
      NotNeededPackage.fromRaw name raw = .error (.unexpectedKey key)) ∧
    (name = toLowerCase name →
      raw.keys.find? (fun key => !(decide (key ∈ allowedNotNeededKeys))) = none →
      raw.libraryName ≠ toLowerCase raw.libraryName →
      NotNeededPackage.fromRaw name raw = .error .libraryNameNotLowerCase) ∧
    (name = toLowerCase name →
      raw.keys.find? (fun key => !(decide (key ∈ allowedNotNeededKeys))) = none →
      raw.libraryName = toLowerCase raw.libraryName →
      (raw.libraryName = [] ∨ name = [] ∨ raw.asOfVersion = []) →
      NotNeededPackage.fromRaw name raw = .error .assertionFailed) ∧
    (name = toLowerCase name →
      raw.keys.find? (fun key => !(decide (key ∈ allowedNotNeededKeys))) = none →
      raw.libraryName = toLowerCase raw.libraryName →
      ¬(raw.libraryName = [] ∨ name = [] ∨ raw.asOfVersion = []) →
      parseSemVer raw.asOfVersion = none →
      NotNeededPackage.fromRaw name raw = .error .invalidVersion) ∧
    (name = toLowerCase name →
      raw.keys.find? (fun key => !(decide (key ∈ allowedNotNeededKeys))) = none →
      raw.libraryName = toLowerCase raw.libraryName →
      ¬(raw.libraryName = [] ∨ name = [] ∨ raw.asOfVersion = []) →
      ∀ v, parseSemVer raw.asOfVersion = some v →
      NotNeededPackage.fromRaw name raw = .ok ⟨name, raw.libraryName, v⟩) := by
  refine ⟨?_, ?_, ?_, ?_, ?_, ?_⟩
  · intro h
    unfold NotNeededPackage.fromRaw
    rw [if_pos h]
  · intro h key hkey
    unfold NotNeededPackage.fromRaw
    rw [if_neg (fun hc => hc h)]
    simp only [hkey]
  · intro h hkeys hlib
    unfold NotNeededPackage.fromRaw
    rw [if_neg (fun hc => hc h)]
    simp only [hkeys]
    rw [if_pos hlib]
  · intro h hkeys hlib hempty
    unfold NotNeededPackage.fromRaw NotNeededPackage.construct
    rw [if_neg (fun hc => hc h)]
    simp only [hkeys]
    rw [if_neg (fun hc => hc hlib), if_pos hempty]
  · intro h hkeys hlib hempty hparse
    unfold NotNeededPackage.fromRaw NotNeededPackage.construct
    rw [if_neg (fun hc => hc h)]
    simp only [hkeys]
    rw [if_neg (fun hc => hc hlib), if_neg hempty]
    simp only [hparse]
  · intro h hkeys hlib hempty v hparse
    unfold NotNeededPackage.fromRaw NotNeededPackage.construct
    rw [if_neg (fun hc => hc h)]
    simp only [hkeys]
    rw [if_neg (fun hc => hc hlib), if_neg hempty]
    simp only [hparse]

/-- Witness for C7: the spec's three failing examples — `fromRaw "Foo"` (name
case), an upper-case `libraryName`, an unexpected key `extra` — plus a
successful construction. -/
theorem claim_c7_witness :
    NotNeededPackage.fromRaw ['F', 'o', 'o']
        ⟨[['a', 's', 'O', 'f', 'V', 'e', 'r', 's', 'i', 'o', 'n']], ['f', 'o', 'o'],
          ['1', '.', '0', '.', '0']⟩ = .error .nameNotLowerCase ∧
    NotNeededPackage.fromRaw ['f', 'o', 'o']
        ⟨[], ['F', 'o', 'o'], ['1', '.', '0', '.', '0']⟩ =
      .error .libraryNameNotLowerCase ∧
    NotNeededPackage.fromRaw ['f', 'o', 'o']
        ⟨[['e', 'x', 't', 'r', 'a']], ['f', 'o', 'o'], ['1', '.', '0', '.', '0']⟩ =
      .error (.unexpectedKey ['e', 'x', 't', 'r', 'a']) ∧
    NotNeededPackage.fromRaw ['f', 'o', 'o']
        ⟨[], ['f', 'o', 'o'], ['1', '.', '2', '.', '3']⟩ =
      .ok ⟨['f', 'o', 'o'], ['f', 'o', 'o'], ⟨1, 2, 3⟩⟩ :=
  ⟨(claim_c7 _ _).1 (by decide),
   (claim_c7 _ _).2.2.1 (by decide) (by decide) (by decide),
   (claim_c7 _ _).2.1 (by decide) ['e', 'x', 't', 'r', 'a'] (by decide),
   (claim_c7 _ _).2.2.2.2.2 (by decide) (by decide) (by decide) (by decide) ⟨1, 2, 3⟩ (by decide)⟩

/-! ## Claim C8 -/

theorem flattenData_eq (data : List (Str × TypingsVersions)) :
    flattenData data = (data.map (fun e => e.2.getAll)).flatten := by
  induction data with
  | nil => rfl
  | cons e rest ih =>
    obtain ⟨n, tv⟩ := e
    simp [flattenData, ih]

/-- Claim C8: `allTypings` flattens every version set across all stored
versions (not only the latest), in registry order; it returns exactly that
flattening — never reordering — when it is sorted by name, and fails with the
internal-consistency error if and only if it is not. -/
theorem claim_c8 (ap : AllPackages) :
    (∀ l, ap.allTypings = some l ↔
      (l = (ap.data.map (fun e => e.2.getAll)).flatten ∧
        sortedBy TypingsData.name l = true)) ∧
    (ap.allTypings = none ↔
      sortedBy TypingsData.name ((ap.data.map (fun e => e.2.getAll)).flatten) = false) := by
  have hfl := flattenData_eq ap.data
  constructor
  · intro l
    constructor
    · intro h
      unfold AllPackages.allTypings assertSorted at h
      by_cases hs : sortedBy TypingsData.name (flattenData ap.data) = true
      · rw [if_pos hs] at h
        injection h with h
        subst h
        exact ⟨hfl.symm ▸ rfl, hs⟩
      · rw [if_neg hs] at h
        cases h
    · rintro ⟨h1, h2⟩
      subst h1
      unfold AllPackages.allTypings assertSorted
      rw [← hfl] at h2 ⊢
      rw [if_pos h2]
  · unfold AllPackages.allTypings assertSorted
    rw [← hfl]
    constructor
    · intro h
      by_cases hs : sortedBy TypingsData.name (flattenData ap.data) = true
      · rw [if_pos hs] at h
        cases h
      · exact Bool.not_eq_true _ ▸ (Bool.eq_false_iff.mpr hs)
    · intro h
      rw [if_neg (by simp [h])]

/-- Witness for C8: a registry with records in name order returns the full
flattening; one with out-of-order names fails the sortedness assertion. -/
theorem claim_c8_witness :
    sampleAll.allTypings = some ((sampleAll.data.map (fun e => e.2.getAll)).flatten) ∧
    sampleBad.allTypings = none :=
  ⟨((claim_c8 sampleAll).1 _).mpr ⟨rfl, by decide⟩,
   (claim_c8 sampleBad).2.mpr (by decide)⟩

/-! ## Claim C10 -/

/-- Claim C10: when a requested `(major, minor)` pair matches a stored
directory key exactly, `resolve` and `tryResolve` return an id carrying the
matched record's header-parsed `(libraryMajorVersion, libraryMinorVersion)`
pair (and its `typingsPackageName`), not the directory key under which the
record was stored and matched; the returned version equals the requested pair
exactly when the header version agrees with the directory key. -/
theorem claim_c10 (regName nm : Str) (data : TypingsVersionsRaw)
    (m n : Nat) (raw : TypingsDataRaw)
    (hmangle : getMangledNameForScopedPackage nm = regName)
    (hraw : alookup data ⟨m, n⟩ = some raw) :
    (AllPackages.ofData [(regName, data)] []).tryResolve ⟨nm, .version ⟨m, some n⟩⟩ =
      ⟨raw.typingsPackageName,
        .version ⟨raw.libraryMajorVersion, some raw.libraryMinorVersion⟩⟩ ∧
    (AllPackages.ofData [(regName, data)] []).resolve ⟨nm, .version ⟨m, some n⟩⟩ =
      some ⟨raw.typingsPackageName, ⟨raw.libraryMajorVersion, raw.libraryMinorVersion⟩⟩ ∧
    ((⟨raw.libraryMajorVersion, raw.libraryMinorVersion⟩ : HeaderParsedTypingVersion) =
        (⟨m, n⟩ : HeaderParsedTypingVersion) ↔
      (raw.libraryMajorVersion = m ∧ raw.libraryMinorVersion = n)) := by
  obtain ⟨b, htry, hget⟩ := tryGet_exact hraw
  have hlook : alookup (AllPackages.ofData [(regName, data)] []).data
      (getMangledNameForScopedPackage nm) = some (TypingsVersions.ofRaw data) := by
    simp [AllPackages.ofData, alookup, hmangle]
  refine ⟨?_, ?_, ?_⟩
  · simp [AllPackages.tryResolve, hlook, htry, TypingsData.id,
      PackageIdWithDefiniteVersion.toPackageId, TypingsData.name, TypingsData.major,
      TypingsData.minor]
  · simp [AllPackages.resolve, hlook, hget, TypingsData.id, TypingsData.name,
      TypingsData.major, TypingsData.minor]
  · simp [HeaderParsedTypingVersion.mk.injEq]

/-- Witness for C10: a record stored and matched under directory key `1.2`
whose header says `3.4` resolves to version `3.4`, not `1.2`. -/
theorem claim_c10_witness :
    (AllPackages.ofData [(['f', 'o', 'o'], [(⟨1, 2⟩, skewRaw)])] []).tryResolve
        ⟨['f', 'o', 'o'], .version ⟨1, some 2⟩⟩ =
      ⟨skewRaw.typingsPackageName,
        .version ⟨skewRaw.libraryMajorVersion, some skewRaw.libraryMinorVersion⟩⟩ ∧
    (AllPackages.ofData [(['f', 'o', 'o'], [(⟨1, 2⟩, skewRaw)])] []).resolve
        ⟨['f', 'o', 'o'], .version ⟨1, some 2⟩⟩ =
      some ⟨skewRaw.typingsPackageName,
        ⟨skewRaw.libraryMajorVersion, skewRaw.libraryMinorVersion⟩⟩ ∧
    ((⟨skewRaw.libraryMajorVersion, skewRaw.libraryMinorVersion⟩ :
        HeaderParsedTypingVersion) = (⟨1, 2⟩ : HeaderParsedTypingVersion) ↔
      (skewRaw.libraryMajorVersion = 1 ∧ skewRaw.libraryMinorVersion = 2)) :=
  claim_c10 ['f', 'o', 'o'] ['f', 'o', 'o'] [(⟨1, 2⟩, skewRaw)] 1 2 skewRaw
    (by decide) (by decide)

end DTTools
